import Mathlib

/-!
# Verification of the jaguar binary serialization codec

A shallow embedding of `crates/core/src/lib.rs` of the `jaguar` repository.

Modelling conventions:
* A byte of the wire format is a `Nat` (always `< 256` for bytes the writer
  produces; the reader masks every byte it consumes exactly as the Rust code
  does, so larger entries in an input list are harmless).
* The writer's buffer is a `List Nat`; a write operation is a pure function
  returning the bytes it appends.
* The reader (`JaguarDeserializer`) holds `data : &[u8]` and `pos : usize`.
  A decode operation is a function of `data` and `pos` returning the pair of
  the Rust `Result` and the reader's cursor after the call (the Rust methods
  mutate `self.pos`; errors leave the cursor where the failing method left it).
* `u64` arithmetic is `Nat` arithmetic with explicit `% 2 ^ 64` where the Rust
  operation wraps; `i64` values are `Int` with explicit two's-complement
  conversions `toU64` / `fromU64`.
* Floats are represented by their IEEE-754 bit patterns (a `Nat`); the
  numeric comparisons `value == 0.0 / 1.0 / -1.0` performed by `write_f32` /
  `write_f64` become decidable predicates on bit patterns (IEEE equality:
  NaN compares unequal to everything, `-0.0 == +0.0`, and every other value
  corresponds to exactly one bit pattern).
-/

namespace Jaguar

/-- `SerError` from `crates/core/src/lib.rs`. -/
inductive SerError where
  | BufferTooSmall
  | InvalidData
  | InvalidLength
  | UnsupportedType
deriving DecidableEq, Repr

/-- The result of a decode call: the returned `Result` together with the
reader's cursor (`self.pos`) after the call. -/
abbrev RdResult (α : Type) := Except SerError α × Nat

/-- `JaguarSerializer::write_varint`: little-endian base-128 with a
continuation bit in the MSB.  The Rust fast path emits `value as u8` when
`value < 0x80`; otherwise the loop emits `(value as u8) | 0x80` and shifts
right by 7 until the value is below `0x80`. -/
def write_varint (v : Nat) : List Nat :=
  if v < 0x80 then [v]
  else ((v % 256) ||| 0x80) :: write_varint (v >>> 7)
termination_by v
decreasing_by
  simp only [Nat.shiftRight_eq_div_pow]
  omega

/-- The loop of `JaguarDeserializer::read_varint`.  The Rust loop reads
`self.data[self.pos]` after checking `self.pos >= self.data.len()`; we carry
the not-yet-consumed suffix `data.drop pos` explicitly so that the recursion
is structural.  `result`, `shift` and `count` are the loop state; the
returned `Nat` is the reader's cursor after the call.  Note the accumulation
`result |= ((byte & 0x7F) as u64) << shift` wraps modulo `2 ^ 64` (Rust `u64`
left shift discards high bits), and the guard `shift >= 64 || count > 9` is
evaluated only after a continuation byte has been consumed. -/
def read_varint_aux : List Nat → Nat → Nat → Nat → Nat → RdResult Nat
  | [], pos, _, _, _ => (.error .BufferTooSmall, pos)
  | b :: rem, pos, result, shift, count =>
    if b &&& 0x80 = 0 then
      (.ok (result ||| ((b &&& 0x7F) <<< shift) % 2 ^ 64), pos + 1)
    else if shift + 7 ≥ 64 ∨ count + 1 > 9 then (.error .InvalidData, pos + 1)
    else read_varint_aux rem (pos + 1) (result ||| ((b &&& 0x7F) <<< shift) % 2 ^ 64)
      (shift + 7) (count + 1)

/-- `JaguarDeserializer::read_varint`. -/
def read_varint (data : List Nat) (pos : Nat) : RdResult Nat :=
  read_varint_aux (data.drop pos) pos 0 0 0

/-! ## Bit-arithmetic toolbox -/

/-- A value below `2 ^ k` has no bit in common with `2 ^ k`. -/
theorem and_two_pow_eq_zero_of_lt {v k : Nat} (h : v < 2 ^ k) : v &&& 2 ^ k = 0 := by
  apply Nat.eq_of_testBit_eq
  intro i
  rw [Nat.testBit_and, Nat.testBit_two_pow, Nat.zero_testBit]
  rcases Nat.decEq k i with h' | h'
  · simp [h']
  · subst h'
    simp [Nat.testBit_lt_two_pow h]

/-- Or-ing in a high bit keeps the low bits. -/
theorem or_two_pow_and {v k : Nat} :
    (v ||| 2 ^ k) &&& (2 ^ k - 1) = v % 2 ^ k := by
  rw [Nat.and_distrib_right, Nat.and_pow_two_sub_one_eq_mod,
    Nat.and_pow_two_sub_one_eq_mod, Nat.mod_self, Nat.or_zero]

/-- Xor with an all-ones mask is complement. -/
theorem xor_two_pow_sub_one : ∀ (w a : Nat), a < 2 ^ w → a ^^^ (2 ^ w - 1) = 2 ^ w - 1 - a := by
  intro w
  induction w with
  | zero =>
    intro a ha
    have : a = 0 := by omega
    subst this
    rfl
  | succ w ih =>
    intro a ha
    have h2 : (2 : Nat) ^ (w + 1) = 2 * 2 ^ w := by
      rw [pow_succ]; ring
    have hdiv : (a ^^^ (2 ^ (w + 1) - 1)) / 2 = 2 ^ w - 1 - a / 2 := by
      rw [Nat.xor_div_two]
      have : (2 ^ (w + 1) - 1) / 2 = 2 ^ w - 1 := by omega
      rw [this]
      exact ih (a / 2) (by omega)
    have hmod := Nat.xor_mod_two_eq_one (a := a) (b := 2 ^ (w + 1) - 1)
    have hM : (2 ^ (w + 1) - 1) % 2 = 1 := by omega
    have hpos : 0 < 2 ^ w := Nat.pos_pow_of_pos w (by omega)
    omega

/-- The continuation byte `(value as u8) | 0x80` masked by `0x7F` yields the
low seven bits of the value. -/
theorem cont_byte_and_7f (v : Nat) : ((v % 256) ||| 0x80) &&& 0x7F = v % 128 := by
  have h : ((v % 256) ||| 2 ^ 7) &&& (2 ^ 7 - 1) = (v % 256) % 2 ^ 7 := or_two_pow_and
  norm_num at h
  exact h

/-- The continuation byte has its MSB set. -/
theorem cont_byte_msb (v : Nat) : ((v % 256) ||| 0x80) &&& 0x80 ≠ 0 := by
  intro h
  have h7 : (((v % 256) ||| 0x80) &&& 0x80).testBit 7 = true := by
    rw [Nat.testBit_and, Nat.testBit_or]
    have h80 : (0x80 : Nat) = 2 ^ 7 := by norm_num
    rw [h80, Nat.testBit_two_pow_self]
    simp
  rw [h] at h7
  simp at h7

/-- A small value shifted by at most 63 fits in 64 bits. -/
theorem shiftLeft_lt_two_pow_64 {v s : Nat} (hs : s ≤ 64) (hv : v < 2 ^ (64 - s)) :
    v <<< s < 2 ^ 64 := by
  rw [Nat.shiftLeft_eq]
  calc v * 2 ^ s < 2 ^ (64 - s) * 2 ^ s :=
        (Nat.mul_lt_mul_right (Nat.pos_pow_of_pos _ (by omega))).mpr hv
    _ = 2 ^ 64 := by rw [← pow_add]; congr 1; omega

/-- Decoding loop applied to the bytes produced by `write_varint` followed by
anything: the loop consumes exactly the produced bytes, terminates
successfully, and ors the written value (shifted to the current position)
into the accumulator.  `shift = 7 * count` is the loop invariant of
`read_varint`; `v < 2 ^ (64 - shift)` says the value fits in the remaining
bit positions, which holds for every value `write_varint` is given. -/
theorem read_varint_aux_write_varint :
    ∀ (v count res pos : Nat) (rest : List Nat),
      v < 2 ^ (64 - 7 * count) → count ≤ 9 →
      read_varint_aux (write_varint v ++ rest) pos res (7 * count) count
        = (.ok (res ||| v <<< (7 * count)), pos + (write_varint v).length) := by
  intro v
  induction v using write_varint.induct with
  | case1 v hlt =>
    intro count res pos rest hv hcount
    rw [write_varint.eq_def, if_pos hlt]
    show read_varint_aux (v :: rest) pos res (7 * count) count = _
    rw [read_varint_aux]
    have hand0 : v &&& 0x80 = 0 := by
      have : (0x80 : Nat) = 2 ^ 7 := by norm_num
      rw [this]
      exact and_two_pow_eq_zero_of_lt (by omega)
    rw [if_pos hand0]
    have hand7f : v &&& 0x7F = v := by
      have : (0x7F : Nat) = 2 ^ 7 - 1 := by norm_num
      rw [this]
      exact Nat.and_pow_two_sub_one_of_lt_two_pow (by omega)
    rw [hand7f, Nat.mod_eq_of_lt (shiftLeft_lt_two_pow_64 (by omega) hv)]
    simp
  | case2 v hlt ih =>
    intro count res pos rest hv hcount
    rw [write_varint.eq_def, if_neg hlt]
    show read_varint_aux (((v % 256) ||| 0x80) :: (write_varint (v >>> 7) ++ rest))
        pos res (7 * count) count = _
    rw [read_varint_aux, if_neg (cont_byte_msb v)]
    have hcount8 : count ≤ 8 := by
      by_contra h9
      have h9' : count = 9 := by omega
      subst h9'
      norm_num at hv
      omega
    rw [if_neg (by omega)]
    rw [cont_byte_and_7f]
    have hsmall : (v % 128) <<< (7 * count) < 2 ^ 64 := by
      apply shiftLeft_lt_two_pow_64 (by omega)
      have h78 : (2 : Nat) ^ 7 ≤ 2 ^ (64 - 7 * count) := Nat.pow_le_pow_right (by omega) (by omega)
      norm_num at h78
      omega
    rw [Nat.mod_eq_of_lt hsmall]
    have hexp : 64 - 7 * count = (64 - 7 * (count + 1)) + 7 := by omega
    have harg : v >>> 7 < 2 ^ (64 - 7 * (count + 1)) := by
      rw [Nat.shiftRight_eq_div_pow]
      rw [Nat.div_lt_iff_lt_mul (Nat.pos_pow_of_pos 7 (by omega)), ← pow_add]
      calc v < 2 ^ (64 - 7 * count) := hv
        _ = 2 ^ (64 - 7 * (count + 1) + 7) := by rw [← hexp]
    have ihres := ih (count + 1) (res ||| (v % 128) <<< (7 * count)) (pos + 1) rest harg
      (by omega)
    have hshift : 7 * (count + 1) = 7 * count + 7 := by ring
    rw [hshift] at ihres
    rw [ihres]
    have hcombine : res ||| (v % 128) <<< (7 * count) ||| (v >>> 7) <<< (7 * count + 7)
        = res ||| v <<< (7 * count) := by
      rw [Nat.or_assoc]
      congr 1
      rw [Nat.shiftRight_eq_div_pow, Nat.shiftLeft_eq, Nat.shiftLeft_eq, Nat.shiftLeft_eq]
      have hb : (v % 128) * 2 ^ (7 * count) < 2 ^ (7 * count + 7) := by
        rw [pow_add]
        calc (v % 128) * 2 ^ (7 * count) < 128 * 2 ^ (7 * count) :=
              (Nat.mul_lt_mul_right (Nat.pos_pow_of_pos _ (by omega))).mpr (by omega)
          _ = 2 ^ (7 * count) * 2 ^ 7 := by ring
      have hor := Nat.mul_add_lt_is_or hb (v / 2 ^ 7)
      rw [Nat.or_comm, Nat.mul_comm (v / 2 ^ 7) (2 ^ (7 * count + 7)), ← hor]
      have h128 : (2 : Nat) ^ 7 = 128 := by norm_num
      rw [h128, pow_add, h128]
      have hvsplit : 128 * (v / 128) + v % 128 = v := by omega
      calc 2 ^ (7 * count) * 128 * (v / 128) + v % 128 * 2 ^ (7 * count)
          = (128 * (v / 128) + v % 128) * 2 ^ (7 * count) := by ring
        _ = v * 2 ^ (7 * count) := by rw [hvsplit]
    rw [hcombine]
    simp [Nat.add_assoc, Nat.add_comm 1]

/-- Unfolding equation for `write_varint` below `0x80`. -/
theorem write_varint_small {v : Nat} (h : v < 0x80) : write_varint v = [v] := by
  rw [write_varint.eq_def, if_pos h]

/-- Unfolding equation for `write_varint` at `0x80` and above, with the
shift expressed as division. -/
theorem write_varint_step {v : Nat} (h : 0x80 ≤ v) :
    write_varint v = ((v % 256) ||| 0x80) :: write_varint (v / 128) := by
  rw [write_varint.eq_def, if_neg (by omega)]
  congr 1
  rw [Nat.shiftRight_eq_div_pow]

/-- One byte of encoded length per seven bits of value. -/
theorem write_varint_length_step {v : Nat} (h : 0x80 ≤ v) :
    (write_varint v).length = (write_varint (v / 128)).length + 1 := by
  rw [write_varint_step h]
  simp

/-- `read_varint` inverts `write_varint` on every `u64` value, consuming
exactly the encoding. -/
theorem read_varint_write_varint (v : Nat) (rest : List Nat) (hv : v < 2 ^ 64) :
    read_varint (write_varint v ++ rest) 0 = (.ok v, (write_varint v).length) := by
  unfold read_varint
  rw [List.drop_zero]
  have h := read_varint_aux_write_varint v 0 0 0 rest (by simpa using hv) (by omega)
  simpa using h

/-- **C1.** Varint round-trip and boundary sizes: for every `u64` value `v`,
`read_varint` applied to the bytes produced by `write_varint(v)` (followed by
any further bytes) returns `v` and leaves the cursor right after the
encoding; and the encoded length is exactly 1 byte for `v = 0` and `v = 127`,
2 bytes for `v = 128` and `v = 16383`, 3 bytes for `v = 16384`, and 10 bytes
for `v = 2^64 - 1`. -/
theorem c1_varint_roundtrip_boundaries :
    (∀ (v : Nat) (rest : List Nat), v < 2 ^ 64 →
        read_varint (write_varint v ++ rest) 0 = (.ok v, (write_varint v).length))
    ∧ (write_varint 0).length = 1 ∧ (write_varint 127).length = 1
    ∧ (write_varint 128).length = 2 ∧ (write_varint 16383).length = 2
    ∧ (write_varint 16384).length = 3 ∧ (write_varint (2 ^ 64 - 1)).length = 10 := by
  refine ⟨fun v rest hv => read_varint_write_varint v rest hv, ?_, ?_, ?_, ?_, ?_, ?_⟩
  · rw [write_varint_small (by norm_num)]
    simp
  · rw [write_varint_small (by norm_num)]
    simp
  · rw [write_varint_length_step (by norm_num), write_varint_small (by norm_num)]
    simp
  · rw [write_varint_length_step (by norm_num), write_varint_small (by norm_num)]
    simp
  · rw [write_varint_length_step (by norm_num), write_varint_length_step (by norm_num),
      write_varint_small (by norm_num)]
    simp
  · rw [write_varint_length_step (by norm_num), write_varint_length_step (by norm_num),
      write_varint_length_step (by norm_num), write_varint_length_step (by norm_num),
      write_varint_length_step (by norm_num), write_varint_length_step (by norm_num),
      write_varint_length_step (by norm_num), write_varint_length_step (by norm_num),
      write_varint_length_step (by norm_num), write_varint_small (by norm_num)]
    simp

/-- Witness for C1 at `v = 300`, `rest = [7]`. -/
theorem c1_witness :
    read_varint (write_varint 300 ++ [7]) 0 = (.ok 300, (write_varint 300).length) :=
  c1_varint_roundtrip_boundaries.1 300 [7] (by norm_num)

/-- **C2 counterexample.** `read_varint` ACCEPTS a ten-byte encoding whose
accumulated value exceeds 64 bits (nine continuation bytes, then a final byte
`0x7F` whose data bits extend above bit 0): the bits above bit 63 are silently
discarded by the wrapping `u64` shift `(byte & 0x7F) << 63`, and the call
returns `Ok(2^63)` where the claim requires the input not to be accepted. -/
theorem c2_counterexample :
    read_varint [0x80, 0x80, 0x80, 0x80, 0x80, 0x80, 0x80, 0x80, 0x80, 0x7F] 0
      = (.ok (2 ^ 63), 10) := rfl

/-- Ten continuation bytes in a row make the `read_varint` loop fail with
`InvalidData` after consuming exactly the ten bytes: on consuming the tenth
continuation byte the accumulated shift reaches `70 ≥ 64`. -/
theorem read_varint_aux_continuation :
    ∀ (rem : List Nat) (count pos res : Nat),
      count ≤ 9 → 10 - count ≤ rem.length →
      (∀ i, i < 10 - count → rem.getD i 0 &&& 0x80 ≠ 0) →
      read_varint_aux rem pos res (7 * count) count
        = (.error .InvalidData, pos + (10 - count)) := by
  intro rem
  induction rem with
  | nil =>
    intro count pos res hc hlen hbits
    simp at hlen
    omega
  | cons b rest ih =>
    intro count pos res hc hlen hbits
    have hb := hbits 0 (by omega)
    simp only [List.getD_cons_zero] at hb
    rw [read_varint_aux, if_neg hb]
    by_cases h9 : count = 9
    · subst h9
      norm_num
    · rw [if_neg (by omega)]
      have hbits' : ∀ i, i < 10 - (count + 1) → rest.getD i 0 &&& 0x80 ≠ 0 := by
        intro i hi
        have := hbits (i + 1) (by omega)
        simpa only [List.getD_cons_succ] using this
      have h := ih (count + 1) (pos + 1) (res ||| ((b &&& 0x7F) <<< (7 * count)) % 2 ^ 64)
        (by omega) (by simp at hlen ⊢; omega) hbits'
      have hshift : 7 * (count + 1) = 7 * count + 7 := by ring
      rw [hshift] at h
      rw [h]
      congr 1
      omega

/-- **C2, amended.** For every byte stream, `read_varint` fails with
`InvalidData` when ten continuation bytes are consumed (more than 10 bytes
would be needed, and the accumulated shift reaches 70 ≥ 64); in particular an
eleven-byte varint fails with `InvalidData` after exactly ten bytes.
However — contrary to the original claim, see the counterexample — a
ten-byte encoding whose accumulated value would exceed 64 bits IS accepted:
the final byte's data bits above bit 0 are discarded by the wrapping `u64`
shift, so only `value mod 2^64` is returned. -/
theorem c2_amended :
    ∀ (data : List Nat) (pos : Nat),
      pos + 10 ≤ data.length →
      (∀ i, i < 10 → data.getD (pos + i) 0 &&& 0x80 ≠ 0) →
      read_varint data pos = (.error .InvalidData, pos + 10) := by
  intro data pos hlen hbits
  unfold read_varint
  have hbits' : ∀ i, i < 10 - 0 → (data.drop pos).getD i 0 &&& 0x80 ≠ 0 := by
    intro i hi
    rw [List.getD_eq_getElem?_getD, List.getElem?_drop, ← List.getD_eq_getElem?_getD]
    exact hbits i (by omega)
  have h := read_varint_aux_continuation (data.drop pos) 0 pos 0 (by omega)
    (by rw [List.length_drop]; omega) hbits'
  simpa using h

/-- Witness for the amended C2: ten continuation bytes `0x80`. -/
theorem c2_amended_witness :
    read_varint (List.replicate 10 0x80) 0 = (.error .InvalidData, 10) := by
  have h := c2_amended (List.replicate 10 0x80) 0 (by simp) (by decide)
  simpa using h

/-! ## Signed varint (zigzag) — C3 -/

/-- Two's-complement `u64` representative of an `i64` value. -/
def toU64 (v : Int) : Nat := (v % 2 ^ 64).toNat

/-- The `i64` value whose two's-complement `u64` representative is `n`. -/
def fromU64 (n : Nat) : Int := if n < 2 ^ 63 then (n : Int) else (n : Int) - 2 ^ 64

/-- The zigzag pre-encoding `((value << 1) ^ (value >> 63)) as u64` of
`JaguarSerializer::write_signed_varint`, expressed on the two's-complement
representative: the `i64` left shift wraps modulo `2 ^ 64`, and the
arithmetic right shift by 63 gives the all-ones word exactly when the sign
bit is set. -/
def zigzagEncode (n : Nat) : Nat :=
  ((2 * n) % 2 ^ 64) ^^^ (if 2 ^ 63 ≤ n then 2 ^ 64 - 1 else 0)

/-- The zigzag post-decoding `((encoded >> 1) as i64) ^ (-((encoded & 1) as i64))`
of `JaguarDeserializer::read_signed_varint`, on two's-complement
representatives: negating the low bit gives the all-ones word exactly when
the low bit is 1. -/
def zigzagDecode (u : Nat) : Nat :=
  (u >>> 1) ^^^ (if u &&& 1 = 1 then 2 ^ 64 - 1 else 0)

/-- `JaguarSerializer::write_signed_varint`. -/
def write_signed_varint (v : Int) : List Nat := write_varint (zigzagEncode (toU64 v))

/-- `JaguarDeserializer::read_signed_varint`. -/
def read_signed_varint (data : List Nat) (pos : Nat) : RdResult Int :=
  match read_varint data pos with
  | (.ok u, p) => (.ok (fromU64 (zigzagDecode u)), p)
  | (.error e, p) => (.error e, p)

/-- The zigzag image of a `u64` representative is a `u64`. -/
theorem zigzagEncode_lt (n : Nat) : zigzagEncode n < 2 ^ 64 := by
  unfold zigzagEncode
  apply Nat.xor_lt_two_pow (Nat.mod_lt _ (by norm_num))
  split <;> norm_num

/-- The two's-complement representative is a `u64`. -/
theorem toU64_lt (v : Int) : toU64 v < 2 ^ 64 := by
  unfold toU64
  have h1 := Int.emod_nonneg v (show (2 : Int) ^ 64 ≠ 0 by positivity)
  have h2 := Int.emod_lt_of_pos v (show (0 : Int) < 2 ^ 64 by positivity)
  omega

/-- Zigzag decode inverts zigzag encode on every `u64` representative. -/
theorem zigzag_roundtrip (n : Nat) (hn : n < 2 ^ 64) :
    zigzagDecode (zigzagEncode n) = n := by
  unfold zigzagEncode zigzagDecode
  by_cases h : 2 ^ 63 ≤ n
  · rw [if_pos h]
    have hm : (2 * n) % 2 ^ 64 = 2 * n - 2 ^ 64 := by omega
    rw [hm, xor_two_pow_sub_one 64 _ (by omega)]
    have hodd : (2 ^ 64 - 1 - (2 * n - 2 ^ 64)) &&& 1 = 1 := by
      rw [Nat.and_one_is_mod]
      omega
    rw [if_pos hodd, Nat.shiftRight_eq_div_pow,
      xor_two_pow_sub_one 64 _ (by omega)]
    have hpow1 : (2 : Nat) ^ 1 = 2 := by norm_num
    rw [hpow1]
    omega
  · rw [if_neg h]
    have hm : (2 * n) % 2 ^ 64 = 2 * n := Nat.mod_eq_of_lt (by omega)
    rw [Nat.xor_zero, hm]
    have heven : (2 * n) &&& 1 = 0 := by
      rw [Nat.and_one_is_mod]
      omega
    rw [heven, if_neg (by omega), Nat.xor_zero, Nat.shiftRight_eq_div_pow]
    have hpow1 : (2 : Nat) ^ 1 = 2 := by norm_num
    rw [hpow1]
    omega

/-- Round trip of the representative conversions for in-range `i64` values. -/
theorem fromU64_toU64 (v : Int) (h1 : -(2 ^ 63) ≤ v) (h2 : v < 2 ^ 63) :
    fromU64 (toU64 v) = v := by
  unfold toU64 fromU64
  have h3 := Int.emod_nonneg v (show (2 : Int) ^ 64 ≠ 0 by positivity)
  have h4 := Int.emod_lt_of_pos v (show (0 : Int) < 2 ^ 64 by positivity)
  have h5 : v % 2 ^ 64 = if 0 ≤ v then v else v + 2 ^ 64 := by
    split <;> omega
  split <;> omega

/-- **C3.** Signed varint (zigzag) symmetry: for every `i64` value `v`,
`read_signed_varint` applied to the bytes produced by
`write_signed_varint(v)` returns `v`, where the encoder maps `v` to
`(v << 1) XOR (v >> 63)` and the decoder maps `u` to
`(u >> 1) XOR -(u AND 1)`; the encodings of `0, -1, 1, -2` are the single
bytes `0x00, 0x01, 0x02, 0x03`, and the encoding of `2147483647` is exactly
5 bytes (so it fits in 5 bytes). -/
theorem c3_signed_varint_symmetry :
    (∀ (v : Int) (rest : List Nat), -(2 ^ 63) ≤ v → v < 2 ^ 63 →
        read_signed_varint (write_signed_varint v ++ rest) 0
          = (.ok v, (write_signed_varint v).length))
    ∧ write_signed_varint 0 = [0x00] ∧ write_signed_varint (-1) = [0x01]
    ∧ write_signed_varint 1 = [0x02] ∧ write_signed_varint (-2) = [0x03]
    ∧ (write_signed_varint 2147483647).length = 5 := by
  refine ⟨fun v rest h1 h2 => ?_, ?_, ?_, ?_, ?_, ?_⟩
  · unfold write_signed_varint read_signed_varint
    rw [read_varint_write_varint _ rest (zigzagEncode_lt _)]
    simp only [zigzag_roundtrip _ (toU64_lt v), fromU64_toU64 v h1 h2]
  · unfold write_signed_varint
    rw [show zigzagEncode (toU64 0) = 0 from rfl]
    rw [write_varint_small (by norm_num)]
  · unfold write_signed_varint
    rw [show zigzagEncode (toU64 (-1)) = 1 from rfl]
    rw [write_varint_small (by norm_num)]
  · unfold write_signed_varint
    rw [show zigzagEncode (toU64 1) = 2 from rfl]
    rw [write_varint_small (by norm_num)]
  · unfold write_signed_varint
    rw [show zigzagEncode (toU64 (-2)) = 3 from rfl]
    rw [write_varint_small (by norm_num)]
  · unfold write_signed_varint
    rw [show zigzagEncode (toU64 2147483647) = 4294967294 from rfl]
    rw [write_varint_length_step (by norm_num), write_varint_length_step (by norm_num),
      write_varint_length_step (by norm_num), write_varint_length_step (by norm_num),
      write_varint_small (by norm_num)]
    simp

/-- Witness for C3 at `v = -5` (zigzag image 9, a single byte). -/
theorem c3_witness :
    read_signed_varint (write_signed_varint (-5) ++ [1]) 0
      = (.ok (-5), (write_signed_varint (-5)).length) :=
  c3_signed_varint_symmetry.1 (-5) [1] (by norm_num) (by norm_num)

/-! ## Float shortcut — C4 -/

/-- Little-endian byte decomposition of a `k`-byte machine word: the raw
IEEE-754 bit pattern written by `write_bytes_unchecked` (native order on the
little-endian hosts the crate targets). -/
def leBytes : Nat → Nat → List Nat
  | 0, _ => []
  | k + 1, v => v % 256 :: leBytes k (v / 256)

/-- Reassembling a little-endian byte list into a machine word: the
`transmute` performed by `read_f32` / `read_f64` on the payload bytes. -/
def fromLeBytes : List Nat → Nat
  | [] => 0
  | b :: rest => b % 256 + 256 * fromLeBytes rest

/-- An `f32` bit pattern is a NaN: exponent field all ones, mantissa nonzero. -/
def f32IsNaN (b : Nat) : Bool := (b >>> 23) &&& 0xFF == 0xFF && b &&& 0x7FFFFF != 0

/-- An `f32` bit pattern represents `±0.0`: everything but the sign bit is 0. -/
def f32IsZero (b : Nat) : Bool := b &&& 0x7FFFFFFF == 0

/-- IEEE-754 numeric equality on `f32` bit patterns, the comparison performed
by `value == 0.0 / 1.0 / -1.0` in `write_f32`: NaN is unequal to everything,
`+0.0 == -0.0`, and every other value has exactly one bit pattern. -/
def f32Eq (a b : Nat) : Bool :=
  !f32IsNaN a && !f32IsNaN b && (a == b || (f32IsZero a && f32IsZero b))

/-- Bit pattern of `1.0f32`. -/
def f32OneBits : Nat := 0x3F800000

/-- Bit pattern of `-1.0f32`. -/
def f32NegOneBits : Nat := 0xBF800000

/-- `JaguarSerializer::write_f32`, on bit patterns. -/
def write_f32 (b : Nat) : List Nat :=
  if f32Eq b 0 then [0]
  else if f32Eq b f32OneBits then [1]
  else if f32Eq b f32NegOneBits then [2]
  else 255 :: leBytes 4 b

/-- `JaguarDeserializer::read_u8`. -/
def read_u8 (data : List Nat) (pos : Nat) : RdResult Nat :=
  if data.length ≤ pos then (.error .BufferTooSmall, pos)
  else (.ok (data.getD pos 0), pos + 1)

/-- `JaguarDeserializer::read_f32`, on bit patterns. -/
def read_f32 (data : List Nat) (pos : Nat) : RdResult Nat :=
  match read_u8 data pos with
  | (.ok marker, p) =>
    if marker = 0 then (.ok 0, p)
    else if marker = 1 then (.ok f32OneBits, p)
    else if marker = 2 then (.ok f32NegOneBits, p)
    else if marker = 255 then
      if p + 4 > data.length then (.error .BufferTooSmall, p)
      else (.ok (fromLeBytes ((data.drop p).take 4)), p + 4)
    else (.error .InvalidData, p)
  | (.error e, p) => (.error e, p)

/-- An `f64` bit pattern is a NaN: exponent field all ones, mantissa nonzero. -/
def f64IsNaN (b : Nat) : Bool :=
  (b >>> 52) &&& 0x7FF == 0x7FF && b &&& 0xFFFFFFFFFFFFF != 0

/-- An `f64` bit pattern represents `±0.0`. -/
def f64IsZero (b : Nat) : Bool := b &&& 0x7FFFFFFFFFFFFFFF == 0

/-- IEEE-754 numeric equality on `f64` bit patterns (see `f32Eq`). -/
def f64Eq (a b : Nat) : Bool :=
  !f64IsNaN a && !f64IsNaN b && (a == b || (f64IsZero a && f64IsZero b))

/-- Bit pattern of `1.0f64`. -/
def f64OneBits : Nat := 0x3FF0000000000000

/-- Bit pattern of `-1.0f64`. -/
def f64NegOneBits : Nat := 0xBFF0000000000000

/-- `JaguarSerializer::write_f64`, on bit patterns. -/
def write_f64 (b : Nat) : List Nat :=
  if f64Eq b 0 then [0]
  else if f64Eq b f64OneBits then [1]
  else if f64Eq b f64NegOneBits then [2]
  else 255 :: leBytes 8 b

/-- `JaguarDeserializer::read_f64`, on bit patterns. -/
def read_f64 (data : List Nat) (pos : Nat) : RdResult Nat :=
  match read_u8 data pos with
  | (.ok marker, p) =>
    if marker = 0 then (.ok 0, p)
    else if marker = 1 then (.ok f64OneBits, p)
    else if marker = 2 then (.ok f64NegOneBits, p)
    else if marker = 255 then
      if p + 8 > data.length then (.error .BufferTooSmall, p)
      else (.ok (fromLeBytes ((data.drop p).take 8)), p + 8)
    else (.error .InvalidData, p)
  | (.error e, p) => (.error e, p)

/-- `leBytes` always produces exactly `k` bytes. -/
theorem leBytes_length : ∀ (k v : Nat), (leBytes k v).length = k := by
  intro k
  induction k with
  | zero => intro v; rfl
  | succ k ih => intro v; simp [leBytes, ih]

/-- An `f32` bit pattern compares numerically equal to `0.0` exactly when it
is `+0.0` or `-0.0`. -/
theorem f32Eq_zero_iff (b : Nat) (hb : b < 2 ^ 32) :
    f32Eq b 0 = true ↔ (b = 0 ∨ b = 0x80000000) := by
  have hmask : b &&& 0x7FFFFFFF = b % 2 ^ 31 := by
    have h : (0x7FFFFFFF : Nat) = 2 ^ 31 - 1 := by norm_num
    rw [h, Nat.and_pow_two_sub_one_eq_mod]
  constructor
  · intro h
    unfold f32Eq at h
    simp only [Bool.and_eq_true, Bool.or_eq_true, beq_iff_eq] at h
    obtain ⟨⟨hnan, -⟩, hor⟩ := h
    rcases hor with h0 | ⟨hz, -⟩
    · exact Or.inl h0
    · unfold f32IsZero at hz
      rw [beq_iff_eq, hmask] at hz
      omega
  · intro h
    rcases h with rfl | rfl <;> decide

/-- The analogue of `f32Eq_zero_iff` for `f64`. -/
theorem f64Eq_zero_iff (b : Nat) (hb : b < 2 ^ 64) :
    f64Eq b 0 = true ↔ (b = 0 ∨ b = 0x8000000000000000) := by
  have hmask : b &&& 0x7FFFFFFFFFFFFFFF = b % 2 ^ 63 := by
    have h : (0x7FFFFFFFFFFFFFFF : Nat) = 2 ^ 63 - 1 := by norm_num
    rw [h, Nat.and_pow_two_sub_one_eq_mod]
  constructor
  · intro h
    unfold f64Eq at h
    simp only [Bool.and_eq_true, Bool.or_eq_true, beq_iff_eq] at h
    obtain ⟨⟨hnan, -⟩, hor⟩ := h
    rcases hor with h0 | ⟨hz, -⟩
    · exact Or.inl h0
    · unfold f64IsZero at hz
      rw [beq_iff_eq, hmask] at hz
      omega
  · intro h
    rcases h with rfl | rfl <;> decide

/-- A bit pattern different from that of `1.0f32` never compares equal to it
(`1.0` is neither a NaN nor a zero). -/
theorem f32Eq_one_eq_false {b : Nat} (h : b ≠ f32OneBits) :
    f32Eq b f32OneBits = false := by
  unfold f32Eq
  rw [beq_eq_false_iff_ne.mpr h,
    show f32IsZero f32OneBits = false from rfl]
  simp

/-- As `f32Eq_one_eq_false`, for `-1.0f32`. -/
theorem f32Eq_negOne_eq_false {b : Nat} (h : b ≠ f32NegOneBits) :
    f32Eq b f32NegOneBits = false := by
  unfold f32Eq
  rw [beq_eq_false_iff_ne.mpr h,
    show f32IsZero f32NegOneBits = false from rfl]
  simp

/-- As `f32Eq_one_eq_false`, for `1.0f64`. -/
theorem f64Eq_one_eq_false {b : Nat} (h : b ≠ f64OneBits) :
    f64Eq b f64OneBits = false := by
  unfold f64Eq
  rw [beq_eq_false_iff_ne.mpr h,
    show f64IsZero f64OneBits = false from rfl]
  simp

/-- As `f32Eq_one_eq_false`, for `-1.0f64`. -/
theorem f64Eq_negOne_eq_false {b : Nat} (h : b ≠ f64NegOneBits) :
    f64Eq b f64NegOneBits = false := by
  unfold f64Eq
  rw [beq_eq_false_iff_ne.mpr h,
    show f64IsZero f64NegOneBits = false from rfl]
  simp

/-- A NaN bit pattern compares equal to nothing. -/
theorem f32Eq_of_nan {b : Nat} (h : f32IsNaN b = true) :
    ∀ c, f32Eq b c = false := by
  intro c
  unfold f32Eq
  rw [h]
  simp

/-- A NaN bit pattern compares equal to nothing (`f64`). -/
theorem f64Eq_of_nan {b : Nat} (h : f64IsNaN b = true) :
    ∀ c, f64Eq b c = false := by
  intro c
  unfold f64Eq
  rw [h]
  simp

/-- **C4.** Float shortcut: `write_f32`/`write_f64` emit the single byte
`0x00` for any value numerically equal to `0.0` (including `-0.0`, whose bit
patterns are exactly `0` and `0x80000000` / `0x8000000000000000`), `0x01`
for `1.0`, `0x02` for `-1.0`, and otherwise the byte `0xFF` followed by the
raw IEEE-754 bit pattern (4 or 8 bytes); a NaN always takes the `0xFF` long
form; `read_f32`/`read_f64` fail with `InvalidData` on any marker byte
outside `{0, 1, 2, 255}`. -/
theorem c4_float_shortcut :
    (∀ b : Nat, b < 2 ^ 32 → (f32Eq b 0 = true ↔ (b = 0 ∨ b = 0x80000000)))
    ∧ (∀ b : Nat, f32Eq b 0 = true → write_f32 b = [0x00])
    ∧ write_f32 f32OneBits = [0x01]
    ∧ write_f32 f32NegOneBits = [0x02]
    ∧ (∀ b : Nat, b < 2 ^ 32 → ¬(b = 0 ∨ b = 0x80000000) → b ≠ f32OneBits →
        b ≠ f32NegOneBits → write_f32 b = 255 :: leBytes 4 b)
    ∧ (∀ b : Nat, f32IsNaN b = true → write_f32 b = 255 :: leBytes 4 b)
    ∧ (∀ v : Nat, (leBytes 4 v).length = 4)
    ∧ (∀ (data : List Nat) (pos : Nat), pos < data.length →
        data.getD pos 0 ≠ 0 → data.getD pos 0 ≠ 1 → data.getD pos 0 ≠ 2 →
        data.getD pos 0 ≠ 255 → read_f32 data pos = (.error .InvalidData, pos + 1))
    ∧ (∀ b : Nat, b < 2 ^ 64 → (f64Eq b 0 = true ↔ (b = 0 ∨ b = 0x8000000000000000)))
    ∧ (∀ b : Nat, f64Eq b 0 = true → write_f64 b = [0x00])
    ∧ write_f64 f64OneBits = [0x01]
    ∧ write_f64 f64NegOneBits = [0x02]
    ∧ (∀ b : Nat, b < 2 ^ 64 → ¬(b = 0 ∨ b = 0x8000000000000000) → b ≠ f64OneBits →
        b ≠ f64NegOneBits → write_f64 b = 255 :: leBytes 8 b)
    ∧ (∀ b : Nat, f64IsNaN b = true → write_f64 b = 255 :: leBytes 8 b)
    ∧ (∀ v : Nat, (leBytes 8 v).length = 8)
    ∧ (∀ (data : List Nat) (pos : Nat), pos < data.length →
        data.getD pos 0 ≠ 0 → data.getD pos 0 ≠ 1 → data.getD pos 0 ≠ 2 →
        data.getD pos 0 ≠ 255 → read_f64 data pos = (.error .InvalidData, pos + 1)) := by
  refine ⟨f32Eq_zero_iff, fun b h => ?_, rfl, rfl, fun b hb hnz hno hnm => ?_,
    fun b hnan => ?_, fun v => leBytes_length 4 v, fun data pos hlt h0 h1 h2 h255 => ?_,
    f64Eq_zero_iff, fun b h => ?_, rfl, rfl, fun b hb hnz hno hnm => ?_,
    fun b hnan => ?_, fun v => leBytes_length 8 v, fun data pos hlt h0 h1 h2 h255 => ?_⟩
  · unfold write_f32
    rw [if_pos h]
  · have hz : f32Eq b 0 = false := by
      cases hfe : f32Eq b 0
      · rfl
      · exact absurd ((f32Eq_zero_iff b hb).mp hfe) hnz
    unfold write_f32
    rw [hz, f32Eq_one_eq_false hno, f32Eq_negOne_eq_false hnm]
    simp
  · unfold write_f32
    rw [f32Eq_of_nan hnan 0, f32Eq_of_nan hnan f32OneBits, f32Eq_of_nan hnan f32NegOneBits]
    simp
  · unfold read_f32 read_u8
    rw [if_neg (by omega)]
    simp only []
    rw [if_neg h0, if_neg h1, if_neg h2, if_neg h255]
  · unfold write_f64
    rw [if_pos h]
  · have hz : f64Eq b 0 = false := by
      cases hfe : f64Eq b 0
      · rfl
      · exact absurd ((f64Eq_zero_iff b hb).mp hfe) hnz
    unfold write_f64
    rw [hz, f64Eq_one_eq_false hno, f64Eq_negOne_eq_false hnm]
    simp
  · unfold write_f64
    rw [f64Eq_of_nan hnan 0, f64Eq_of_nan hnan f64OneBits, f64Eq_of_nan hnan f64NegOneBits]
    simp
  · unfold read_f64 read_u8
    rw [if_neg (by omega)]
    simp only []
    rw [if_neg h0, if_neg h1, if_neg h2, if_neg h255]

/-- Witness for C4: `-0.0f32` (bits `0x80000000`) takes the `0x00` short
form, the quiet NaN `0x7FC00000` takes the long form, and the marker byte
`3` is rejected with `InvalidData`. -/
theorem c4_witness :
    write_f32 0x80000000 = [0x00]
    ∧ write_f32 0x7FC00000 = 255 :: leBytes 4 0x7FC00000
    ∧ read_f32 [3] 0 = (.error .InvalidData, 1) :=
  ⟨c4_float_shortcut.2.1 0x80000000 (by decide),
   c4_float_shortcut.2.2.2.2.2.1 0x7FC00000 (by decide),
   c4_float_shortcut.2.2.2.2.2.2.2.1 [3] 0 (by decide) (by decide) (by decide)
     (by decide) (by decide)⟩

/-! ## Bit-packed boolean sequences — C5 -/

/-- The packed byte for one chunk of at most eight booleans: the loop
`byte |= 1 << i` over the chunk sets bit `i` of the byte to the chunk's
`i`-th entry. -/
def packBits : List Bool → Nat
  | [] => 0
  | b :: rest => (if b then 1 else 0) + 2 * packBits rest

/-- The chunking loop of `JaguarSerializer::write_bool_slice`: full
eight-bool chunks while `pos + 8 <= slice.len()`, then one final partial
byte when `pos < slice.len()`. -/
def packChunks (l : List Bool) : List Nat :=
  if 8 ≤ l.length then packBits (l.take 8) :: packChunks (l.drop 8)
  else if l.length = 0 then []
  else [packBits l]
termination_by l.length
decreasing_by
  simp only [List.length_drop]
  omega

/-- `JaguarSerializer::write_bool_slice`: `varint(n)` then the packed bytes. -/
def write_bool_slice (l : List Bool) : List Nat :=
  write_varint l.length ++ packChunks l

/-- The bools extracted from one byte by `read_bool_vec`: for `i` in `0..k`,
`(byte & (1 << i)) != 0`. -/
def bitsOfByte (b k : Nat) : List Bool :=
  (List.range k).map fun i => decide (b &&& (1 <<< i) ≠ 0)

/-- The unpacking loop of `JaguarDeserializer::read_bool_vec`, reading from
the suffix of the input that starts at the cursor: eight bools per byte
while `pos + 8 <= len`, then `len - pos` bools from one final byte. -/
def unpackBits (bytes : List Nat) (n : Nat) : List Bool :=
  if 8 ≤ n then bitsOfByte (bytes.headD 0) 8 ++ unpackBits bytes.tail (n - 8)
  else if n = 0 then []
  else bitsOfByte (bytes.headD 0) n
termination_by n
decreasing_by omega

/-- `JaguarDeserializer::read_bool_vec`. -/
def read_bool_vec (data : List Nat) (pos : Nat) : RdResult (List Bool) :=
  match read_varint data pos with
  | (.ok n, p) =>
    if p + (n + 7) / 8 > data.length then (.error .BufferTooSmall, p)
    else (.ok (unpackBits (data.drop p) n), p + (n + 7) / 8)
  | (.error e, p) => (.error e, p)

/-- Bit `i` of a packed chunk is the chunk's `i`-th boolean. -/
theorem packBits_testBit : ∀ (l : List Bool) (i : Nat),
    (packBits l).testBit i = l.getD i false := by
  intro l
  induction l with
  | nil => intro i; simp [packBits]
  | cons b rest ih =>
    intro i
    cases i with
    | zero =>
      simp only [packBits, List.getD_cons_zero]
      rw [Nat.testBit_zero]
      cases b <;> simp [Nat.add_comm, Nat.add_mul_mod_self_left]
    | succ i =>
      rw [Nat.testBit_add_one]
      simp only [packBits, List.getD_cons_succ]
      have hdiv : ((if b then 1 else 0) + 2 * packBits rest) / 2 = packBits rest := by
        cases b
        · show (0 + 2 * packBits rest) / 2 = packBits rest
          omega
        · show (1 + 2 * packBits rest) / 2 = packBits rest
          omega
      rw [hdiv, ih]

/-- Masking with a single bit extracts `testBit`. -/
theorem and_two_pow_eq (b i : Nat) :
    b &&& 2 ^ i = if b.testBit i then 2 ^ i else 0 := by
  apply Nat.eq_of_testBit_eq
  intro j
  rw [Nat.testBit_and]
  rcases Nat.decEq i j with h | h
  · have hne : (2 ^ i).testBit j = false := Nat.testBit_two_pow_of_ne h
    rw [hne, Bool.and_false]
    split
    · exact hne.symm
    · exact (Nat.zero_testBit j).symm
  · subst h
    rcases hb : b.testBit i <;> simp [hb, Nat.testBit_two_pow_self]

/-- The decoder's bit test agrees with `testBit`. -/
theorem bitsOfByte_eq_testBit (b k : Nat) :
    bitsOfByte b k = (List.range k).map fun i => b.testBit i := by
  unfold bitsOfByte
  apply List.map_congr_left
  intro i _
  have h1 : (1 : Nat) <<< i = 2 ^ i := by rw [Nat.shiftLeft_eq, one_mul]
  rw [h1, and_two_pow_eq]
  have hpos : (0 : Nat) < 2 ^ i := pow_pos (by omega) i
  rcases hb : b.testBit i
  · simp
  · simp [hpos.ne']

/-- Reading a list back through its positions reproduces the list. -/
theorem map_getD_range : ∀ (l : List Bool),
    (List.range l.length).map (fun i => l.getD i false) = l := by
  intro l
  induction l with
  | nil => simp
  | cons b rest ih =>
    rw [List.length_cons, List.range_succ_eq_map]
    simp only [List.map_cons, List.getD_cons_zero, List.map_map]
    congr 1

/-- Unpacking a packed chunk gives the chunk back. -/
theorem bitsOfByte_packBits (l : List Bool) :
    bitsOfByte (packBits l) l.length = l := by
  rw [bitsOfByte_eq_testBit]
  have h : ∀ i ∈ List.range l.length, (packBits l).testBit i = l.getD i false :=
    fun i _ => packBits_testBit l i
  rw [List.map_congr_left h, map_getD_range]

/-- `write_bool_slice` emits exactly `ceil(n/8)` packed bytes. -/
theorem packChunks_length (l : List Bool) :
    (packChunks l).length = (l.length + 7) / 8 := by
  induction l using packChunks.induct with
  | case1 l h8 ih =>
    rw [packChunks.eq_def, if_pos h8]
    simp only [List.length_cons, ih, List.length_drop]
    omega
  | case2 l h8 h0 =>
    rw [packChunks.eq_def, if_neg h8, if_pos h0]
    simp only [List.length_nil, h0]
  | case3 l h8 h0 =>
    rw [packChunks.eq_def, if_neg h8, if_neg h0]
    simp only [List.length_singleton]
    omega

/-- The `j`-th packed byte packs the `j`-th chunk of eight booleans. -/
theorem packChunks_getD : ∀ (l : List Bool) (j : Nat), j < (packChunks l).length →
    (packChunks l).getD j 0 = packBits ((l.drop (8 * j)).take 8) := by
  intro l
  induction l using packChunks.induct with
  | case1 l h8 ih =>
    intro j hj
    rw [packChunks.eq_def, if_pos h8] at hj ⊢
    cases j with
    | zero => simp
    | succ j =>
      rw [List.getD_cons_succ]
      rw [ih j (by simpa using hj)]
      rw [List.drop_drop]
      have h : 8 + 8 * j = 8 * (j + 1) := by ring
      rw [h]
  | case2 l h8 h0 =>
    intro j hj
    rw [packChunks.eq_def, if_neg h8, if_pos h0] at hj
    simp at hj
  | case3 l h8 h0 =>
    intro j hj
    rw [packChunks.eq_def, if_neg h8, if_neg h0] at hj ⊢
    have hj0 : j = 0 := by
      simp only [List.length_singleton] at hj
      omega
    subst hj0
    rw [List.getD_cons_zero, List.drop_zero, List.take_of_length_le (by omega)]

/-- The unpacking loop inverts the chunking loop, for any trailing bytes. -/
theorem unpackBits_packChunks : ∀ (l : List Bool) (rest : List Nat),
    unpackBits (packChunks l ++ rest) l.length = l := by
  intro l
  induction l using packChunks.induct with
  | case1 l h8 ih =>
    intro rest
    rw [packChunks.eq_def, if_pos h8, List.cons_append]
    rw [unpackBits.eq_def, if_pos h8]
    simp only [List.headD_cons, List.tail_cons]
    have htake : (l.take 8).length = 8 := by
      rw [List.length_take]
      omega
    have hb8 : bitsOfByte (packBits (l.take 8)) 8 = l.take 8 := by
      have h := bitsOfByte_packBits (l.take 8)
      rw [htake] at h
      exact h
    have hlen : l.length - 8 = (l.drop 8).length := (List.length_drop 8 l).symm
    rw [hb8, hlen, ih rest]
    exact List.take_append_drop 8 l
  | case2 l h8 h0 =>
    intro rest
    rw [packChunks.eq_def, if_neg h8, if_pos h0]
    rw [unpackBits.eq_def, if_neg (by omega), if_pos h0]
    exact (List.length_eq_zero.mp h0).symm
  | case3 l h8 h0 =>
    intro rest
    rw [packChunks.eq_def, if_neg h8, if_neg h0, List.singleton_append]
    rw [unpackBits.eq_def, if_neg h8, if_neg h0]
    simp only [List.headD_cons]
    exact bitsOfByte_packBits l

/-- **C5.** Bit-packed boolean sequence: for every slice of `n` booleans
(`n` a `usize`, hence below `2^64`), `write_bool_slice` emits `varint(n)`
followed by exactly `ceil(n/8)` bytes in which bit `i` (least significant
= 0) of byte `j` holds the boolean at offset `8*j + i` and all trailing bits
of the final partial byte are zero (`getD` returns `false` past the end);
and `read_bool_vec` on that encoding (followed by any further bytes)
returns exactly the original `n` booleans. -/
theorem c5_bool_slice (l : List Bool) (rest : List Nat) (hl : l.length < 2 ^ 64) :
    write_bool_slice l = write_varint l.length ++ packChunks l
    ∧ (packChunks l).length = (l.length + 7) / 8
    ∧ (∀ j i, j < (packChunks l).length → i < 8 →
        ((packChunks l).getD j 0).testBit i = l.getD (8 * j + i) false)
    ∧ read_bool_vec (write_bool_slice l ++ rest) 0 = (.ok l, (write_bool_slice l).length) := by
  refine ⟨rfl, packChunks_length l, fun j i hj hi => ?_, ?_⟩
  · rw [packChunks_getD l j hj, packBits_testBit]
    rw [List.getD_eq_getElem?_getD, List.getD_eq_getElem?_getD]
    rw [List.getElem?_take_of_lt hi, List.getElem?_drop]
  · unfold read_bool_vec write_bool_slice
    rw [List.append_assoc]
    rw [read_varint_write_varint l.length (packChunks l ++ rest) hl]
    simp only []
    have hchunks := packChunks_length l
    rw [if_neg (by simp only [List.length_append]; omega)]
    rw [List.drop_left, unpackBits_packChunks l rest]
    simp only [List.length_append, hchunks]

/-- Witness for C5 at `l = [true, false, true]`. -/
theorem c5_witness :
    ((packChunks [true, false, true]).getD 0 0).testBit 1
        = [true, false, true].getD 1 false
    ∧ read_bool_vec (write_bool_slice [true, false, true] ++ []) 0
        = (.ok [true, false, true], (write_bool_slice [true, false, true]).length) := by
  have h := c5_bool_slice [true, false, true] [] (by norm_num)
  refine ⟨h.2.2.1 0 1 ?_ (by norm_num), h.2.2.2⟩
  rw [h.2.1]
  norm_num

/-! ## Fixed-length arrays — C6 -/

/-- Concatenation of per-element encodings (the `for item in self { item.serialize(ser)? }`
loop). -/
def concatAll : List (List Nat) → List Nat
  | [] => []
  | l :: ls => l ++ concatAll ls

/-- `impl JaguarSerialize for [u8; N]`: the array's bytes are copied raw,
with no length prefix. -/
def u8_array_serialize (arr : List Nat) : List Nat := arr

/-- `impl JaguarDeserialize for [u8; N]`: bounds check, raw copy of `N`
bytes, cursor advanced by `N`. -/
def u8_array_deserialize (N : Nat) (data : List Nat) (pos : Nat) : RdResult (List Nat) :=
  if pos + N > data.length then (.error .BufferTooSmall, pos)
  else (.ok ((data.drop pos).take N), pos + N)

/-- The serializer generated by `impl_fixed_array!` for `[T; N]` (`T` any of
the non-byte primitives): `varint(N)` then each element's encoding in
declaration order, generic in the element serializer. -/
def fixed_array_serialize {α : Type} (elemSer : α → List Nat) (arr : List α) : List Nat :=
  write_varint arr.length ++ concatAll (arr.map elemSer)

/-- The element loop of the deserializer generated by `impl_fixed_array!`:
`N` element decodes in sequence, threading the cursor.  `elemDe` is
`<T>::deserialize` against the fixed input, as a function of the cursor. -/
def fixed_array_elems {α : Type} (elemDe : Nat → RdResult α) : Nat → Nat → RdResult (List α)
  | 0, pos => (.ok [], pos)
  | k + 1, pos =>
    match elemDe pos with
    | (.ok v, p) =>
      match fixed_array_elems elemDe k p with
      | (.ok vs, p') => (.ok (v :: vs), p')
      | (.error e, p') => (.error e, p')
    | (.error e, p) => (.error e, p)

/-- The deserializer generated by `impl_fixed_array!` for `[T; N]`: read the
length prefix, reject with `InvalidLength` when it differs from `N`, else
decode `N` elements. -/
def fixed_array_deserialize {α : Type} (elemDe : Nat → RdResult α) (N : Nat)
    (data : List Nat) (pos : Nat) : RdResult (List α) :=
  match read_varint data pos with
  | (.ok len, p) => if len ≠ N then (.error .InvalidLength, p) else fixed_array_elems elemDe N p
  | (.error e, p) => (.error e, p)

/-- **C6.** Fixed-length arrays: a `[u8; N]` value serializes to exactly its
`N` raw bytes with no length prefix; an array of `N` elements of any other
primitive kind serializes to `varint(N)` followed by the `N` element
encodings; and deserializing such an array from a stream whose leading
length prefix decodes to `M` with `M ≠ N` returns `InvalidLength` with the
cursor exactly at the end of that prefix — no bytes beyond it are
consumed. -/
theorem c6_fixed_arrays :
    (∀ arr : List Nat, u8_array_serialize arr = arr)
    ∧ (∀ (α : Type) (elemSer : α → List Nat) (arr : List α),
        fixed_array_serialize elemSer arr = write_varint arr.length ++ concatAll (arr.map elemSer))
    ∧ (∀ (α : Type) (elemDe : Nat → RdResult α) (N : Nat) (data : List Nat)
        (pos M p : Nat), read_varint data pos = (.ok M, p) → M ≠ N →
        fixed_array_deserialize elemDe N data pos = (.error .InvalidLength, p)) := by
  refine ⟨fun arr => rfl, fun α es arr => rfl, fun α ed N data pos M p hv hne => ?_⟩
  unfold fixed_array_deserialize
  rw [hv]
  simp only []
  rw [if_pos hne]

/-- Witness for C6: the test scenario — a prefix of 3 against a declared
size of 4 is rejected with `InvalidLength`, cursor after the one-byte
prefix. -/
theorem c6_witness :
    fixed_array_deserialize (fun p => (.ok (0 : Nat), p + 1)) 4 [3, 1, 2, 3] 0
      = (.error .InvalidLength, 1) :=
  c6_fixed_arrays.2.2 Nat (fun p => (.ok 0, p + 1)) 4 [3, 1, 2, 3] 0 3 1 rfl (by omega)

/-! ## Reader cursor invariants — C8 -/

/-- `JaguarDeserializer::read_fixed_array::<T, N>`: bounds check on
`N * size_of::<T>()` bytes, raw copy of those bytes, cursor advanced by that
count. -/
def read_fixed_array (size N : Nat) (data : List Nat) (pos : Nat) : RdResult (List Nat) :=
  if pos + N * size > data.length then (.error .BufferTooSmall, pos)
  else (.ok ((data.drop pos).take (N * size)), pos + N * size)

/-- The `read_varint` loop never moves the cursor backwards, never moves it
past the region, and on success consumes at least one byte. -/
theorem read_varint_aux_bounds : ∀ (rem : List Nat) (pos res shift count : Nat),
    pos ≤ (read_varint_aux rem pos res shift count).2
    ∧ (read_varint_aux rem pos res shift count).2 ≤ pos + rem.length
    ∧ (∀ v p', read_varint_aux rem pos res shift count = (.ok v, p') → pos < p') := by
  intro rem
  induction rem with
  | nil =>
    intro pos res shift count
    refine ⟨le_refl _, by simp [read_varint_aux], ?_⟩
    intro v p' h
    exact absurd (congrArg Prod.fst h) (by simp [read_varint_aux])
  | cons b rest ih =>
    intro pos res shift count
    by_cases h1 : b &&& 0x80 = 0
    · rw [read_varint_aux, if_pos h1]
      refine ⟨by omega, by simp, ?_⟩
      intro v p' hh
      have h2 := congrArg Prod.snd hh
      simp at h2
      omega
    · by_cases h2 : shift + 7 ≥ 64 ∨ count + 1 > 9
      · rw [read_varint_aux, if_neg h1, if_pos h2]
        refine ⟨by omega, by simp, ?_⟩
        intro v p' hh
        exact absurd (congrArg Prod.fst hh) (by simp)
      · rw [read_varint_aux, if_neg h1, if_neg h2]
        obtain ⟨ha, hb, hc⟩ := ih (pos + 1)
          (res ||| ((b &&& 0x7F) <<< shift) % 2 ^ 64) (shift + 7) (count + 1)
        refine ⟨by omega, by simp only [List.length_cons]; omega, ?_⟩
        intro v p' hh
        have := hc v p' hh
        omega

/-- **C8, amended.** Reader cursor invariant: for the fixed-array decode
operations and for `read_varint`, starting from any in-bounds cursor the
cursor stays within `0 ≤ cursor ≤ region length`; a successful decode
advances the cursor by exactly the number of bytes consumed (`N * size`,
`N`, or at least one byte for `read_varint`); and a failed decode leaves
the cursor at a bounded position (`≤ region length`) — for the fixed-array
decodes that position is the entry cursor, while `read_varint` can fail
with the cursor advanced past the bytes it consumed.  The original claim's
"strictly advances" fails for the zero-size decodes (see the
counterexample): `[u8; 0]` and `read_fixed_array` with `N * size = 0`
succeed without moving the cursor. -/
theorem c8_cursor_amended :
    ∀ (data : List Nat) (pos : Nat), pos ≤ data.length →
      (∀ size N : Nat,
        pos ≤ (read_fixed_array size N data pos).2
        ∧ (read_fixed_array size N data pos).2 ≤ data.length
        ∧ (∀ v p', read_fixed_array size N data pos = (.ok v, p') → p' = pos + N * size)
        ∧ (∀ e p', read_fixed_array size N data pos = (.error e, p') → p' = pos))
      ∧ (∀ N : Nat,
        pos ≤ (u8_array_deserialize N data pos).2
        ∧ (u8_array_deserialize N data pos).2 ≤ data.length
        ∧ (∀ v p', u8_array_deserialize N data pos = (.ok v, p') → p' = pos + N)
        ∧ (∀ e p', u8_array_deserialize N data pos = (.error e, p') → p' = pos))
      ∧ (pos ≤ (read_varint data pos).2 ∧ (read_varint data pos).2 ≤ data.length
        ∧ (∀ v p', read_varint data pos = (.ok v, p') → pos < p')) := by
  intro data pos hpos
  refine ⟨fun size N => ?_, fun N => ?_, ?_⟩
  · unfold read_fixed_array
    by_cases h : pos + N * size > data.length
    · rw [if_pos h]
      exact ⟨le_refl pos, hpos, fun v p' hh => absurd (congrArg Prod.fst hh) (by simp),
        fun e p' hh => (congrArg Prod.snd hh).symm⟩
    · rw [if_neg h]
      refine ⟨?_, ?_, ?_, ?_⟩
      · show pos ≤ pos + N * size
        omega
      · show pos + N * size ≤ data.length
        omega
      · intro v p' hh
        exact (congrArg Prod.snd hh).symm
      · intro e p' hh
        exact absurd (congrArg Prod.fst hh) (by simp)
  · unfold u8_array_deserialize
    by_cases h : pos + N > data.length
    · rw [if_pos h]
      exact ⟨le_refl pos, hpos, fun v p' hh => absurd (congrArg Prod.fst hh) (by simp),
        fun e p' hh => (congrArg Prod.snd hh).symm⟩
    · rw [if_neg h]
      refine ⟨?_, ?_, ?_, ?_⟩
      · show pos ≤ pos + N
        omega
      · show pos + N ≤ data.length
        omega
      · intro v p' hh
        exact (congrArg Prod.snd hh).symm
      · intro e p' hh
        exact absurd (congrArg Prod.fst hh) (by simp)
  · obtain ⟨h1, h2, h3⟩ := read_varint_aux_bounds (data.drop pos) pos 0 0 0
    rw [List.length_drop] at h2
    exact ⟨h1, by unfold read_varint; omega, h3⟩

/-- **C8 counterexample.** A successful decode does NOT always strictly
advance the cursor: deserializing `[u8; 0]` from the empty stream succeeds
(`Ok([])`) with the cursor still at 0. -/
theorem c8_counterexample :
    ¬ (∀ (N : Nat) (data : List Nat) (pos : Nat) (v : List Nat) (p' : Nat),
        u8_array_deserialize N data pos = (.ok v, p') → pos < p') := by
  intro h
  have h0 := h 0 [] 0 [] 0 rfl
  omega

/-- Witness for the amended C8 on the two-byte stream `[5, 6]`. -/
theorem c8_witness :
    (read_fixed_array 1 2 [5, 6] 0).2 ≤ [5, 6].length
    ∧ (read_varint [5, 6] 0).2 ≤ [5, 6].length := by
  have h := c8_cursor_amended [5, 6] 0 (by norm_num)
  exact ⟨(h.1 1 2).2.1, h.2.2.2.1⟩

/-! ## Length-prefixed strings and byte slices — C7 -/

/-- `JaguarSerializer::write_u32_slice`: `varint(len)` then the raw 4-byte
words of the elements, one word per element, in native (little-endian)
memory order. -/
def write_u32_slice (s : List Nat) : List Nat :=
  write_varint s.length ++ concatAll (s.map (leBytes 4))

/-- `impl JaguarSerialize for u32`: a lone `u32` scalar is varint-encoded
(`ser.write_varint(*self as u64)`). -/
def u32_serialize (v : Nat) : List Nat := write_varint v

/-- The slice encoding the spec contrasts with the raw path:
`varint(length)` followed by each `u32` encoded as a scalar.  This second
definition follows the spec's words for the refinement comparison; the
codec does NOT use it for `u32` slices. -/
def u32ScalarSeq (s : List Nat) : List Nat :=
  write_varint s.length ++ concatAll (s.map u32_serialize)

/-- Each element contributes exactly `k` raw bytes. -/
theorem concatAll_map_leBytes_length (k : Nat) : ∀ (s : List Nat),
    (concatAll (s.map (leBytes k))).length = k * s.length := by
  intro s
  induction s with
  | nil => simp [concatAll]
  | cons v rest ih =>
    simp only [List.map_cons, concatAll, List.length_append, leBytes_length, ih,
      List.length_cons]
    ring

/-- **C9.** `write_u32_slice` encodes a slice as `varint(length)` followed
by raw 4-byte words, one per element (so the body is exactly `4 * length`
bytes), and this encoding is NOT equivalent to writing `varint(length)`
followed by each `u32` encoded as a scalar: the slice `[0]` produces
different byte sequences under the two schemes. -/
theorem c9_u32_slice_asymmetry :
    (∀ s : List Nat,
        write_u32_slice s = write_varint s.length ++ concatAll (s.map (leBytes 4))
        ∧ (write_u32_slice s).length = (write_varint s.length).length + 4 * s.length)
    ∧ (∃ s : List Nat, write_u32_slice s ≠ u32ScalarSeq s) := by
  constructor
  · intro s
    refine ⟨rfl, ?_⟩
    simp [write_u32_slice, List.length_append, concatAll_map_leBytes_length]
  · refine ⟨[0], ?_⟩
    have h1 : write_u32_slice [0] = [1, 0, 0, 0, 0] := by
      unfold write_u32_slice
      rw [write_varint_small (by norm_num)]
      simp [concatAll, leBytes]
    have h2 : u32ScalarSeq [0] = [1, 0] := by
      unfold u32ScalarSeq u32_serialize
      rw [write_varint_small (by norm_num)]
      simp only [List.map_cons, List.map_nil, concatAll]
      rw [write_varint_small (by norm_num)]
      simp
    rw [h1, h2]
    simp

/-! ## Implicit narrowing on decode — C10 -/

/-- `impl JaguarDeserialize for u16`: `Ok(de.read_varint()? as u16)` — the
`as` cast truncates modulo `2 ^ 16`, with no range check. -/
def u16_deserialize (data : List Nat) (pos : Nat) : RdResult Nat :=
  match read_varint data pos with
  | (.ok u, p) => (.ok (u % 2 ^ 16), p)
  | (.error e, p) => (.error e, p)

/-- `impl JaguarDeserialize for u32`: `Ok(de.read_varint()? as u32)`. -/
def u32_deserialize (data : List Nat) (pos : Nat) : RdResult Nat :=
  match read_varint data pos with
  | (.ok u, p) => (.ok (u % 2 ^ 32), p)
  | (.error e, p) => (.error e, p)

/-- The element loop of `read_u64_vec`: `len` varint reads. -/
def read_varint_list (data : List Nat) : Nat → Nat → RdResult (List Nat)
  | 0, pos => (.ok [], pos)
  | k + 1, pos =>
    match read_varint data pos with
    | (.ok v, p) =>
      match read_varint_list data k p with
      | (.ok vs, p') => (.ok (v :: vs), p')
      | (.error e, p') => (.error e, p')
    | (.error e, p) => (.error e, p)

/-- `JaguarDeserializer::read_u64_vec`. -/
def read_u64_vec (data : List Nat) (pos : Nat) : RdResult (List Nat) :=
  match read_varint data pos with
  | (.ok len, p) => read_varint_list data len p
  | (.error e, p) => (.error e, p)

/-- The element loop of `read_u16_vec`: `len` varint reads, each pushed
through the `as u16` truncation. -/
def read_u16_list (data : List Nat) : Nat → Nat → RdResult (List Nat)
  | 0, pos => (.ok [], pos)
  | k + 1, pos =>
    match read_varint data pos with
    | (.ok v, p) =>
      match read_u16_list data k p with
      | (.ok vs, p') => (.ok (v % 2 ^ 16 :: vs), p')
      | (.error e, p') => (.error e, p')
    | (.error e, p) => (.error e, p)

/-- `JaguarDeserializer::read_u16_vec`. -/
def read_u16_vec (data : List Nat) (pos : Nat) : RdResult (List Nat) :=
  match read_varint data pos with
  | (.ok len, p) => read_u16_list data len p
  | (.error e, p) => (.error e, p)

/-- Whenever the untruncated loop succeeds, the `u16` loop succeeds on the
same bytes with every element reduced modulo `2 ^ 16`. -/
theorem read_u16_list_eq_map : ∀ (data : List Nat) (k pos : Nat) (vs : List Nat) (p : Nat),
    read_varint_list data k pos = (.ok vs, p) →
    read_u16_list data k pos = (.ok (vs.map (· % 2 ^ 16)), p) := by
  intro data k
  induction k with
  | zero =>
    intro pos vs p h
    unfold read_varint_list at h
    have h1 := congrArg Prod.fst h
    have h2 := congrArg Prod.snd h
    simp at h1 h2
    subst h1
    subst h2
    rfl
  | succ k ih =>
    intro pos vs p h
    unfold read_varint_list at h
    unfold read_u16_list
    rcases hv : read_varint data pos with ⟨r, p1⟩
    rw [hv] at h
    rcases r with e | v
    · simp at h
    · simp only [] at h ⊢
      rcases hrest : read_varint_list data k p1 with ⟨r2, p2⟩
      rw [hrest] at h
      rcases r2 with e2 | vs2
      · exact absurd (congrArg Prod.fst h) (by simp)
      · have h1 := congrArg Prod.fst h
        have h2 := congrArg Prod.snd h
        simp at h1 h2
        subst h1
        subst h2
        rw [ih p1 vs2 p2 hrest]
        simp

/-- **C10.** Implicit unsigned narrowing on decode: whenever the head of the
stream is a valid varint encoding of a `u64` value `u` (i.e. `read_varint`
succeeds with `u`), `u16::deserialize` succeeds and returns `u mod 2^16`,
`u32::deserialize` succeeds and returns `u mod 2^32`, and `read_u16_vec`
truncates each element of the corresponding `u64` vector the same way; no
range check is performed and no error is returned when `u` exceeds the
target width. -/
theorem c10_unsigned_narrowing :
    (∀ (data : List Nat) (pos u p : Nat), read_varint data pos = (.ok u, p) →
        u16_deserialize data pos = (.ok (u % 2 ^ 16), p) ∧ u32_deserialize data pos = (.ok (u % 2 ^ 32), p))
    ∧ (∀ (data : List Nat) (k pos : Nat) (vs : List Nat) (p : Nat),
        read_varint_list data k pos = (.ok vs, p) →
        read_u16_list data k pos = (.ok (vs.map (· % 2 ^ 16)), p))
    ∧ (∀ (data : List Nat) (pos : Nat) (vs : List Nat) (p : Nat),
        read_u64_vec data pos = (.ok vs, p) →
        read_u16_vec data pos = (.ok (vs.map (· % 2 ^ 16)), p)) := by
  refine ⟨fun data pos u p hv => ?_, read_u16_list_eq_map, fun data pos vs p h => ?_⟩
  · unfold u16_deserialize u32_deserialize
    rw [hv]
    exact ⟨rfl, rfl⟩
  · unfold read_u64_vec at h
    unfold read_u16_vec
    rcases hv : read_varint data pos with ⟨r, p1⟩
    rw [hv] at h
    rcases r with e | len
    · simp at h
    · simp only [] at h ⊢
      exact read_u16_list_eq_map data len p1 vs p h

/-- Witness for C10: the three-byte varint of 70000 decodes as
`70000 mod 2^16 = 4464` through the `u16` paths. -/
theorem c10_witness :
    u16_deserialize [0xF0, 0xA2, 0x04] 0 = (.ok 4464, 3)
    ∧ read_u16_vec [1, 0xF0, 0xA2, 0x04] 0 = (.ok [4464], 4) := by
  have h1 := (c10_unsigned_narrowing.1 [0xF0, 0xA2, 0x04] 0 70000 3 rfl).1
  have h2 := c10_unsigned_narrowing.2.2 [1, 0xF0, 0xA2, 0x04] 0 [70000] 4 rfl
  constructor
  · simpa using h1
  · simpa using h2
